import Mathlib

/- Verification development for the PowerDNS Zookeeper remote backend
   (pdns_zkns.py).  Python strings are modelled as Lean `String`, with the
   character-level operations carried out on `List Char`; Python `int` is
   Lean `Int`; Python `None` is `Option.none`.  The Zookeeper serverset
   store is abstracted as a function from coordination paths to the list of
   registered instances (a missing node and an empty node both map to the
   empty list, exactly as the backend treats them). -/

namespace PdnsZkns

/-- Python str.strip with an explicit character predicate: drop matching
characters from both ends. -/
def stripList (p : Char → Bool) (l : List Char) : List Char :=
  ((l.dropWhile p).reverse.dropWhile p).reverse

def isDot (c : Char) : Bool := c == '.'

/-- Python hostname.strip with the dot character set, as used throughout
construct_paths and ZknsServer. -/
def stripDots (l : List Char) : List Char := stripList isDot l

/-- The whitespace characters stripped by Python int() before parsing. -/
def pyWhitespace (c : Char) : Bool :=
  c == ' ' || c == '\t' || c == '\n' || c == '\r' || c == '\x0b' || c == '\x0c'

def stripWs (l : List Char) : List Char := stripList pyWhitespace l

/-- Numeric value of a decimal digit string. -/
def digitsVal (l : List Char) : Nat :=
  l.foldl (fun a c => a * 10 + (c.toNat - 48)) 0

/-- A non-empty all-digit string parses to its value; anything else fails. -/
def parseDigits (l : List Char) : Option Nat :=
  if !l.isEmpty && l.all Char.isDigit then some (digitsVal l) else none

/-- Python int() applied to a string: strip whitespace, optional sign,
then a non-empty run of decimal digits; ValueError is modelled as none. -/
def pyInt (l : List Char) : Option Int :=
  match stripWs l with
  | '+' :: rest => (parseDigits rest).map Int.ofNat
  | '-' :: rest => (parseDigits rest).map (fun n => -(n : Int))
  | rest => (parseDigits rest).map Int.ofNat

/-- Python s.split(sep) for a single-character separator: every occurrence
of sep splits, empty segments are kept, and the empty string splits to a
single empty segment. -/
def splitChar (sep : Char) : List Char → List (List Char)
  | [] => [[]]
  | c :: rest =>
    match splitChar sep rest with
    | [] => [[c]]
    | h :: t => if c == sep then [] :: h :: t else (c :: h) :: t

/-- The index at position i of l carries an occurrence of sep. -/
def occursAt (l sep : List Char) (i : Nat) : Bool :=
  sep.isPrefixOf (l.drop i)

/-- Index of the last occurrence of sep in l, if any. -/
def lastMatchIdx (l sep : List Char) : Option Nat :=
  ((List.range (l.length + 1)).filter (occursAt l sep)).getLast?

/-- The first component of Python l.rpartition(sep): everything before the
last occurrence of sep, or the empty string when sep does not occur. -/
def rpartitionBefore (l sep : List Char) : List Char :=
  match lastMatchIdx l sep with
  | some i => l.take i
  | none => []

/-- Python sep.join for a single-character separator. -/
def joinCharList (sep : Char) : List (List Char) → List Char
  | [] => []
  | [x] => x
  | x :: rest => x ++ sep :: joinCharList sep rest

/-- Python str.lower (ASCII case folding, as in the C locale). -/
def lowerStr (s : String) : String := String.mk (s.toList.map Char.toLower)

def stripDotsStr (s : String) : String := String.mk (stripDots s.toList)

/-- Python s.endswith(suffix). -/
def endswithStr (s suf : String) : Bool :=
  suf.toList.isSuffixOf s.toList

/-- The qrec of construct_paths: the part of the dot-stripped hostname
before the last occurrence of basedomain; the whole dot-stripped hostname
when basedomain is falsy (None or empty). -/
def qrecChars (hostname basedomain : List Char) : List Char :=
  if basedomain.isEmpty then stripDots hostname
  else rpartitionBefore (stripDots hostname) basedomain

/-- path_components of construct_paths before shard extraction:
list(reversed(qrec.strip(dot).split(dot))). -/
def rawComponents (hostname basedomain : List Char) : List (List Char) :=
  (splitChar '.' (stripDots (qrecChars hostname basedomain))).reverse

/-- Shard extraction of construct_paths: try int(path_components[-1]); on
success drop that component and keep the value, on ValueError keep the
components and no shard.  (path_components is never empty here, since a
split always has at least one segment.) -/
def shardSplit (comps : List (List Char)) : List (List Char) × Option Int :=
  match comps.getLast? with
  | some lbl =>
    match pyInt lbl with
    | some n => (comps.dropLast, some n)
    | none => (comps, none)
  | none => (comps, none)

/-- One coalescing step of the construct_paths loop: pop the last two
components e and d and append the single component e + dot + d. -/
def coalesce : List (List Char) → List (List Char)
  | [] => []
  | [x] => [x]
  | [d, e] => [e ++ '.' :: d]
  | x :: rest => x :: coalesce rest

/-- The yield loop of construct_paths: while components remain, yield the
slash-join with the shard, stop after a single component, else coalesce the
last two components and continue.  Each coalescing step shortens the list
by one, so the component count is enough fuel to run the loop to its
return. -/
def yieldPathsAux : Nat → List (List Char) → Option Int → List (String × Option Int)
  | _, [], _ => []
  | _, [x], sh => [(String.mk x, sh)]
  | 0, _, _ => []
  | fuel + 1, comps, sh =>
    (String.mk (joinCharList '/' comps), sh) :: yieldPathsAux fuel (coalesce comps) sh

/-- construct_paths(hostname, basedomain): the full candidate list, in
yield order.  A Python basedomain of None is modelled by the empty string,
which Python treats identically (both are falsy). -/
def constructPaths (hostname basedomain : String) : List (String × Option Int) :=
  let cs := shardSplit (rawComponents hostname.toList basedomain.toList)
  yieldPathsAux cs.1.length cs.1 cs.2

/-- A registered endpoint of a serverset instance. -/
structure Endpoint where
  host : String
  port : Int
deriving DecidableEq

/-- A serverset instance as read from Zookeeper: its service endpoint and
its optional integer shard. -/
structure Instance where
  service_endpoint : Endpoint
  shard : Option Int
deriving DecidableEq

/-- The while/try loop of ZknsServer.resolve_hostname, walking the
candidate list produced by construct_paths: an empty serverset means try
the next candidate; a non-empty set with no shard constraint is returned
whole; with a shard constraint the first instance with that shard is
returned as a singleton, and a non-empty set lacking the shard means try
the next candidate; an exhausted candidate list returns the empty list. -/
def resolveLoop (store : String → List Instance) : List (String × Option Int) → List Instance
  | [] => []
  | (zkpath, shard) :: rest =>
    match store zkpath, shard with
    | [], _ => resolveLoop store rest
    | sset, none => sset
    | sset, some sh =>
      match sset.find? (fun i => i.shard == some sh) with
      | some inst => [inst]
      | none => resolveLoop store rest

/-- Spec-side model of ServiceSetLookup, written from the words of the
specification: walk the candidates in order; read the set at the path; with
no ShardIndex return the whole set if non-empty, else continue; with a
ShardIndex return a singleton of the instance whose shard equals it if one
exists, else continue (whether the set was empty or merely lacked the
shard); an exhausted sequence is an empty, non-error result. -/
def serviceSetLookupSpec (store : String → List Instance) : List (String × Option Int) → List Instance
  | [] => []
  | (path, shardIdx) :: rest =>
    match shardIdx with
    | none =>
      if (store path).isEmpty then serviceSetLookupSpec store rest
      else store path
    | some sh =>
      match ((store path).filter (fun i => i.shard == some sh)).head? with
      | some inst => [inst]
      | none => serviceSetLookupSpec store rest

/-- SOA data as held by SOAData: all numeric fields are ints, ns and email
are strings. -/
structure SOAData where
  ttl : Int
  ns : String
  email : String
  refresh : Int
  retry : Int
  expire : Int
  nxdomain_ttl : Int
deriving DecidableEq

/-- Decimal digits of a natural number, most significant first; the fuel
argument bounds the recursion depth and n + 1 is always enough. -/
def natDigitsAux : Nat → Nat → List Char
  | 0, _ => []
  | fuel + 1, n =>
    if n < 10 then [Char.ofNat (48 + n)]
    else natDigitsAux fuel (n / 10) ++ [Char.ofNat (48 + n % 10)]

def natToString (n : Nat) : String := String.mk (natDigitsAux (n + 1) n)

/-- Python str() of an int. -/
def intToString : Int → String
  | Int.ofNat n => natToString n
  | Int.negSucc n => "-" ++ natToString (n + 1)

/-- SOAData.__str__: the percent-format string with the literal serial 1. -/
def soaStr (d : SOAData) : String :=
  d.ns ++ " " ++ d.email ++ " " ++ intToString d.refresh ++ " 1 " ++
    intToString d.retry ++ " " ++ intToString d.expire ++ " " ++
    intToString d.nxdomain_ttl

/-- One DNS record of the remote-backend wire format. -/
structure DnsRecord where
  qtype : String
  qname : String
  ttl : Int
  content : String
deriving DecidableEq

/-- The payload placed under the result key of a backend response: the
negative indicator False, a record list, or a string list (metadata). -/
inductive PdnsResult where
  | fail
  | records (rs : List DnsRecord)
  | strs (ss : List String)
deriving DecidableEq

structure DnsResponse where
  result : PdnsResult
deriving DecidableEq

/-- dnsresponse(data): wrap the payload under the result key (the debug
logging is irrelevant to the returned value). -/
def dnsresponse (data : PdnsResult) : DnsResponse := ⟨data⟩

/-- The state of a ZknsServer: the Zookeeper client is abstracted as the
store function, and domain is the configured domain as stored by init. -/
structure ZknsServer where
  store : String → List Instance
  domain : String
  soa_data : SOAData
  ttl : Int

/-- ZknsServer.__init__: the configured domain is dot-stripped before being
stored. -/
def mkZknsServer (store : String → List Instance) (domain : String)
    (ttl : Int) (soa_data : SOAData) : ZknsServer :=
  ⟨store, stripDotsStr domain, soa_data, ttl⟩

/-- ZknsServer.resolve_hostname. -/
def ZknsServer.resolve_hostname (srv : ZknsServer) (hostname : String) : List Instance :=
  resolveLoop srv.store (constructPaths hostname srv.domain)

/-- ZknsServer.a_response. -/
def ZknsServer.a_response (srv : ZknsServer) (qname : String) : DnsResponse :=
  dnsresponse (PdnsResult.records
    ((srv.resolve_hostname qname).map (fun x =>
      { qtype := "A", qname := qname, ttl := srv.ttl,
        content := x.service_endpoint.host })))

/-- ZknsServer.soa_response. -/
def ZknsServer.soa_response (srv : ZknsServer) (qname : String) : DnsResponse :=
  if !(endswithStr (stripDotsStr (lowerStr qname)) srv.domain) then
    dnsresponse PdnsResult.fail
  else
    dnsresponse (PdnsResult.records
      [{ qtype := "SOA", qname := srv.domain, ttl := srv.soa_data.ttl,
         content := soaStr srv.soa_data }])

/-- ZknsServer.dnsapi_lookup. -/
def ZknsServer.dnsapi_lookup (srv : ZknsServer) (qname qtype : String) : DnsResponse :=
  if qtype = "A" ∨ qtype = "ANY" then srv.a_response qname
  else if qtype = "SOA" then srv.soa_response qname
  else dnsresponse PdnsResult.fail

/-- ZknsServer.dnsapi_getdomainmetadata (a static method: no server state
is consulted). -/
def dnsapi_getdomainmetadata (_qname qkind : String) : DnsResponse :=
  if qkind = "SOA-EDIT" then dnsresponse (PdnsResult.strs ["EPOCH"])
  else dnsresponse PdnsResult.fail

/-- Number of slash-separated components of a yielded coordination path. -/
def pathComponentCount (p : String) : Nat :=
  (splitChar '/' p.toList).length

/-- A concrete SOA configuration used to exercise the theorems. -/
def testSOA : SOAData :=
  { ttl := 300, ns := "ns1.zk.example.com", email := "root.zk.example.com",
    refresh := 1200, retry := 180, expire := 86400, nxdomain_ttl := 60 }

/-- A store with no registered serverset anywhere. -/
def emptyStore : String → List Instance := fun _ => []

/-- A concrete server used to exercise the theorems. -/
def testSrv : ZknsServer := mkZknsServer emptyStore "zk.example.com" 60 testSOA

end PdnsZkns

namespace PdnsZkns

/-- C1: construct_paths applied to the docstring example hostname and base
domain yields exactly the five documented candidates, in order, each
carrying shard 0. -/
theorem construct_paths_doc_example :
    constructPaths "0.job.foo.bar.bas.buz.basedomain.example.com" "basedomain.example.com" =
      [("buz/bas/bar/foo/job", some 0), ("buz/bas/bar/job.foo", some 0),
       ("buz/bas/job.foo.bar", some 0), ("buz/job.foo.bar.bas", some 0),
       ("job.foo.bar.bas.buz", some 0)] := by decide

/-- C5: a query name whose case-folded, dot-stripped form does not end with
the server's domain gets the negative indicator from soa_response. -/
theorem soa_negative_for_foreign_names (srv : ZknsServer) (qname : String)
    (h : endswithStr (stripDotsStr (lowerStr qname)) srv.domain = false) :
    srv.soa_response qname = dnsresponse PdnsResult.fail := by
  simp [ZknsServer.soa_response, h]

theorem soa_negative_for_foreign_names_witness :
    endswithStr (stripDotsStr (lowerStr "www.Google.com.")) testSrv.domain = false ∧
      testSrv.soa_response "www.Google.com." = dnsresponse PdnsResult.fail :=
  ⟨by decide, soa_negative_for_foreign_names testSrv "www.Google.com." (by decide)⟩

/-- C6: a query name whose case-folded, dot-stripped form ends with the
server's domain gets exactly one SOA record whose qname is the domain,
whose ttl is the configured SOA ttl, and whose content is the exact
serialization with the literal constant 1 in the serial position. -/
theorem soa_positive_record_shape (srv : ZknsServer) (qname : String)
    (h : endswithStr (stripDotsStr (lowerStr qname)) srv.domain = true) :
    srv.soa_response qname =
      dnsresponse (PdnsResult.records
        [{ qtype := "SOA", qname := srv.domain, ttl := srv.soa_data.ttl,
           content := srv.soa_data.ns ++ " " ++ srv.soa_data.email ++ " " ++
             intToString srv.soa_data.refresh ++ " 1 " ++
             intToString srv.soa_data.retry ++ " " ++
             intToString srv.soa_data.expire ++ " " ++
             intToString srv.soa_data.nxdomain_ttl }]) := by
  simp [ZknsServer.soa_response, h, soaStr]

theorem soa_positive_record_shape_witness :
    endswithStr (stripDotsStr (lowerStr "ZK.example.com.")) testSrv.domain = true ∧
      testSrv.soa_response "ZK.example.com." =
        dnsresponse (PdnsResult.records
          [{ qtype := "SOA", qname := testSrv.domain, ttl := testSrv.soa_data.ttl,
             content := testSrv.soa_data.ns ++ " " ++ testSrv.soa_data.email ++ " " ++
               intToString testSrv.soa_data.refresh ++ " 1 " ++
               intToString testSrv.soa_data.retry ++ " " ++
               intToString testSrv.soa_data.expire ++ " " ++
               intToString testSrv.soa_data.nxdomain_ttl }]) :=
  ⟨by decide, soa_positive_record_shape testSrv "ZK.example.com." (by decide)⟩

/-- C7: a_response maps every resolved instance to an A record carrying the
original query name, the configured ttl and the instance host (no port),
and an empty resolution gives the empty record list, never the negative
indicator. -/
theorem a_response_shape (srv : ZknsServer) (qname : String) :
    srv.a_response qname =
      dnsresponse (PdnsResult.records
        ((srv.resolve_hostname qname).map (fun x =>
          { qtype := "A", qname := qname, ttl := srv.ttl,
            content := x.service_endpoint.host }))) ∧
      (srv.resolve_hostname qname = [] →
        srv.a_response qname = dnsresponse (PdnsResult.records [])) := by
  refine ⟨rfl, fun h => ?_⟩
  simp [ZknsServer.a_response, h]

theorem a_response_shape_witness :
    testSrv.resolve_hostname "job.zk.example.com" = [] ∧
      testSrv.a_response "job.zk.example.com" = dnsresponse (PdnsResult.records []) :=
  ⟨by decide, (a_response_shape testSrv "job.zk.example.com").2 (by decide)⟩

/-- C8: getDomainMetadata answers the fixed list EPOCH for kind SOA-EDIT
and the negative indicator for every other kind, and the lookup dispatcher
answers the negative indicator for every qtype other than A, ANY and SOA,
returning a value rather than raising. -/
theorem dispatcher_unsupported (srv : ZknsServer) (qname qtype qkind : String) :
    dnsapi_getdomainmetadata qname "SOA-EDIT" = dnsresponse (PdnsResult.strs ["EPOCH"]) ∧
      (qkind ≠ "SOA-EDIT" →
        dnsapi_getdomainmetadata qname qkind = dnsresponse PdnsResult.fail) ∧
      (qtype ≠ "A" → qtype ≠ "ANY" → qtype ≠ "SOA" →
        srv.dnsapi_lookup qname qtype = dnsresponse PdnsResult.fail) := by
  refine ⟨rfl, fun h => ?_, fun h1 h2 h3 => ?_⟩
  · simp [dnsapi_getdomainmetadata, h]
  · simp [ZknsServer.dnsapi_lookup, h1, h2, h3]

theorem dispatcher_unsupported_witness :
    dnsapi_getdomainmetadata "zk.example.com" "ALSO-NOTIFY" = dnsresponse PdnsResult.fail ∧
      testSrv.dnsapi_lookup "zk.example.com" "TXT" = dnsresponse PdnsResult.fail :=
  ⟨(dispatcher_unsupported testSrv "zk.example.com" "TXT" "ALSO-NOTIFY").2.1 (by decide),
   (dispatcher_unsupported testSrv "zk.example.com" "TXT" "ALSO-NOTIFY").2.2
     (by decide) (by decide) (by decide)⟩

theorem find_eq_head_filter {α : Type} (p : α → Bool) (l : List α) :
    l.find? p = (l.filter p).head? := by
  induction l with
  | nil => rfl
  | cons a t ih =>
    cases h : p a with
    | true => simp only [List.find?, List.filter, h]; rfl
    | false => simp only [List.find?, List.filter, h]; exact ih

theorem resolveLoop_eq_spec (store : String → List Instance)
    (cands : List (String × Option Int)) :
    resolveLoop store cands = serviceSetLookupSpec store cands := by
  induction cands with
  | nil => rfl
  | cons c rest ih =>
    obtain ⟨path, shardIdx⟩ := c
    cases shardIdx with
    | none =>
      cases hs : store path with
      | nil => simp [resolveLoop, serviceSetLookupSpec, hs, ih]
      | cons a t => simp [resolveLoop, serviceSetLookupSpec, hs]
    | some sh =>
      cases hs : store path with
      | nil => simp [resolveLoop, serviceSetLookupSpec, hs, ih]
      | cons a t =>
        simp only [resolveLoop, serviceSetLookupSpec, hs, find_eq_head_filter]
        cases hh : ((a :: t).filter (fun i => i.shard == some sh)).head? with
        | none => simp [hh, ih]
        | some inst => simp [hh]

/-- C2: the resolve_hostname loop agrees, on every store and every
candidate list, with the specification's description of ServiceSetLookup
(first non-empty candidate wins when no ShardIndex was extracted; a
singleton of the matching-shard instance otherwise, continuing past
non-empty sets lacking the shard; an exhausted sequence gives the empty
list, not an error), and resolve_hostname is that walk over the
construct_paths candidates of the query name and the server domain. -/
theorem resolve_hostname_matches_lookup_spec :
    (∀ (store : String → List Instance) (cands : List (String × Option Int)),
      resolveLoop store cands = serviceSetLookupSpec store cands) ∧
    (∀ (srv : ZknsServer) (hostname : String),
      srv.resolve_hostname hostname =
        serviceSetLookupSpec srv.store (constructPaths hostname srv.domain)) :=
  ⟨resolveLoop_eq_spec, fun srv _hostname => resolveLoop_eq_spec srv.store _⟩

theorem coalesce_length :
    ∀ l : List (List Char), 2 ≤ l.length → (coalesce l).length + 1 = l.length
  | [], h => by simp at h
  | [_], h => by simp at h
  | [d, e], _ => by simp [coalesce]
  | a :: b :: c :: rest, _ => by
    have ih := coalesce_length (b :: c :: rest) (by simp)
    simp only [coalesce, List.length_cons] at ih ⊢
    omega

theorem yieldPathsAux_length :
    ∀ (fuel : Nat) (comps : List (List Char)) (sh : Option Int),
      comps.length ≤ fuel →
      (yieldPathsAux fuel comps sh).length = comps.length := by
  intro fuel
  induction fuel with
  | zero =>
    intro comps sh h
    cases comps with
    | nil => rfl
    | cons a t => simp at h
  | succ f ih =>
    intro comps sh h
    match comps with
    | [] => rfl
    | [x] => rfl
    | a :: b :: rest =>
      have hco := coalesce_length (a :: b :: rest) (by simp)
      simp only [List.length_cons] at hco
      have hle : (coalesce (a :: b :: rest)).length ≤ f := by
        simp only [List.length_cons] at h
        omega
      have hrec := ih (coalesce (a :: b :: rest)) sh hle
      simp only [yieldPathsAux, List.length_cons]
      omega

/-- C10: the candidate generation is finite: every coalescing step shrinks
the component list by exactly one, and construct_paths yields at most as
many candidates as there are components remaining after stripping the base
domain and the optional shard label. -/
theorem construct_paths_terminates :
    (∀ l : List (List Char), 2 ≤ l.length → (coalesce l).length + 1 = l.length) ∧
    (∀ h bd : String,
      (constructPaths h bd).length ≤
        ((shardSplit (rawComponents h.toList bd.toList)).1).length) := by
  refine ⟨coalesce_length, fun h bd => ?_⟩
  simp only [constructPaths]
  exact le_of_eq (yieldPathsAux_length _ _ _ le_rfl)

theorem construct_paths_terminates_witness :
    (2 ≤ ([['a'], ['b'], ['c']] : List (List Char)).length ∧
      (coalesce [['a'], ['b'], ['c']]).length + 1 =
        ([['a'], ['b'], ['c']] : List (List Char)).length) ∧
    (constructPaths "0.job.foo.basedomain.example.com" "basedomain.example.com").length ≤
      ((shardSplit (rawComponents ("0.job.foo.basedomain.example.com").toList
        ("basedomain.example.com").toList)).1).length :=
  ⟨⟨by decide, construct_paths_terminates.1 [['a'], ['b'], ['c']] (by decide)⟩,
   construct_paths_terminates.2 "0.job.foo.basedomain.example.com" "basedomain.example.com"⟩

theorem yieldPathsAux_snd :
    ∀ (fuel : Nat) (comps : List (List Char)) (sh : Option Int)
      (p : String × Option Int), p ∈ yieldPathsAux fuel comps sh → p.2 = sh := by
  intro fuel
  induction fuel with
  | zero =>
    intro comps sh p hp
    cases comps with
    | nil => simp [yieldPathsAux] at hp
    | cons a t =>
      cases t with
      | nil =>
        simp only [yieldPathsAux, List.mem_singleton] at hp
        simp [hp]
      | cons b u => simp [yieldPathsAux] at hp
  | succ f ih =>
    intro comps sh p hp
    match comps with
    | [] => simp [yieldPathsAux] at hp
    | [x] =>
      simp only [yieldPathsAux, List.mem_singleton] at hp
      simp [hp]
    | a :: b :: rest =>
      simp only [yieldPathsAux, List.mem_cons] at hp
      rcases hp with hp | hp
      · simp [hp]
      · exact ih (coalesce (a :: b :: rest)) sh p hp

theorem shardSplit_eq_some (comps : List (List Char)) (n : Int)
    (hn : (shardSplit comps).2 = some n) :
    ∃ lbl, comps.getLast? = some lbl ∧ pyInt lbl = some n ∧
      (shardSplit comps).1 = comps.dropLast := by
  cases hlast : comps.getLast? with
  | none => simp only [shardSplit, hlast] at hn; cases hn
  | some lbl =>
    cases hint : pyInt lbl with
    | none => simp only [shardSplit, hlast, hint] at hn; cases hn
    | some m =>
      simp only [shardSplit, hlast, hint, Option.some.injEq] at hn
      exact ⟨lbl, rfl, by rw [hint, hn], by simp only [shardSplit, hlast, hint]⟩

theorem shardSplit_eq_none (comps : List (List Char)) (lbl : List Char)
    (hl : comps.getLast? = some lbl) (hint : pyInt lbl = none) :
    shardSplit comps = (comps, none) := by
  simp only [shardSplit, hl, hint]

/-- C9 (amended): the shard extracted by construct_paths is the Python
int() value of the innermost label, which may be negative; the component
list loses exactly that label; and a label that does not parse as an
integer is kept as an ordinary component with no shard.  Every yielded
candidate carries that same extracted shard. -/
theorem shard_extraction_amended (h bd : String) :
    (∀ n : Int, (shardSplit (rawComponents h.toList bd.toList)).2 = some n →
      ∃ lbl, (rawComponents h.toList bd.toList).getLast? = some lbl ∧
        pyInt lbl = some n ∧
        (shardSplit (rawComponents h.toList bd.toList)).1 =
          (rawComponents h.toList bd.toList).dropLast) ∧
    (∀ lbl, (rawComponents h.toList bd.toList).getLast? = some lbl →
      pyInt lbl = none →
      shardSplit (rawComponents h.toList bd.toList) =
        (rawComponents h.toList bd.toList, none)) ∧
    (∀ p ∈ constructPaths h bd,
      p.2 = (shardSplit (rawComponents h.toList bd.toList)).2) := by
  refine ⟨fun n hn => shardSplit_eq_some _ n hn,
    fun lbl hl hint => shardSplit_eq_none _ lbl hl hint,
    fun p hp => ?_⟩
  simp only [constructPaths] at hp
  exact yieldPathsAux_snd _ _ _ p hp

theorem shard_extraction_amended_witness :
    (rawComponents ("job.basedomain.example.com").toList
        ("basedomain.example.com").toList).getLast? = some ("job").toList ∧
      pyInt ("job").toList = none ∧
      shardSplit (rawComponents ("job.basedomain.example.com").toList
          ("basedomain.example.com").toList) =
        (rawComponents ("job.basedomain.example.com").toList
          ("basedomain.example.com").toList, none) :=
  ⟨by decide, by decide,
   (shard_extraction_amended "job.basedomain.example.com" "basedomain.example.com").2.1
     ("job").toList (by decide) (by decide)⟩

/-- C9 counterexample: the hostname whose innermost label is the string
minus-one has a ShardIndex extracted, and that ShardIndex is negative, so
the extracted ShardIndex is not always a non-negative integer and a label
that does not parse as a non-negative integer is not always kept. -/
theorem shard_extraction_counterexample :
    constructPaths "-1.job.basedomain.example.com" "basedomain.example.com" =
      [("job", some (-1))] ∧ (-1 : Int) < 0 := by
  exact ⟨by decide, by decide⟩

theorem head_dropWhile_false (p : Char → Bool) (l : List Char) (a : Char)
    (h : (l.dropWhile p).head? = some a) : p a = false := by
  have hh := List.head?_dropWhile_not p l
  rw [h] at hh
  simpa using hh

theorem stripList_getLast_false (p : Char → Bool) (l : List Char) (c : Char)
    (h : (stripList p l).getLast? = some c) : p c = false := by
  unfold stripList at h
  rw [List.getLast?_reverse] at h
  exact head_dropWhile_false p _ c h

theorem stripList_length_le (p : Char → Bool) (l : List Char) :
    (stripList p l).length ≤ l.length := by
  unfold stripList
  rw [List.length_reverse]
  calc ((l.dropWhile p).reverse.dropWhile p).length
      ≤ (l.dropWhile p).reverse.length := (List.dropWhile_sublist p).length_le
    _ = (l.dropWhile p).length := List.length_reverse _
    _ ≤ l.length := (List.dropWhile_sublist p).length_le

theorem prefix_length_le (a b : List Char) (h : a.isPrefixOf b = true) :
    a.length ≤ b.length :=
  (List.isPrefixOf_iff_prefix.mp h).length_le

theorem lastMatchIdx_occurs (l sep : List Char) (i : Nat)
    (h : lastMatchIdx l sep = some i) : occursAt l sep i = true := by
  unfold lastMatchIdx at h
  have hm := List.mem_of_getLast?_eq_some h
  exact (List.mem_filter.mp hm).2

theorem qrecChars_self (bd : List Char) : qrecChars bd bd = [] := by
  cases bd with
  | nil => rfl
  | cons c t =>
    have heq : qrecChars (c :: t) (c :: t) =
        rpartitionBefore (stripDots (c :: t)) (c :: t) := rfl
    rw [heq]
    unfold rpartitionBefore
    cases hidx : lastMatchIdx (stripDots (c :: t)) (c :: t) with
    | none => rfl
    | some i =>
      have hocc := lastMatchIdx_occurs _ _ i hidx
      unfold occursAt at hocc
      have hlen := prefix_length_le _ _ hocc
      rw [List.length_drop] at hlen
      have hstrip : (stripDots (c :: t)).length ≤ (c :: t).length :=
        stripList_length_le _ _
      have hpos : 0 < (c :: t).length := by simp
      have hi : i = 0 := by omega
      subst hi
      simp

theorem rawComponents_of_empty (hl bdl : List Char)
    (hq : stripDots (qrecChars hl bdl) = []) : rawComponents hl bdl = [[]] := by
  unfold rawComponents
  rw [hq]
  rfl

theorem constructPaths_of_empty_qrec (h bd : String)
    (hq : stripDots (qrecChars h.toList bd.toList) = []) :
    constructPaths h bd = [("", none)] := by
  have hr := rawComponents_of_empty h.toList bd.toList hq
  simp only [constructPaths, hr]
  rfl

/-- C3 (amended): whenever the remainder of the hostname after stripping
the base domain is empty — in particular whenever the hostname equals the
base domain — construct_paths yields exactly one candidate, the empty
coordination path with no shard, rather than yielding nothing. -/
theorem empty_remainder_single_candidate :
    (∀ h bd : String, stripDots (qrecChars h.toList bd.toList) = [] →
      constructPaths h bd = [("", (none : Option Int))]) ∧
    (∀ bd : String, stripDots (qrecChars bd.toList bd.toList) = []) :=
  ⟨fun h bd hq => constructPaths_of_empty_qrec h bd hq,
   fun bd => by rw [qrecChars_self]; rfl⟩

theorem empty_remainder_single_candidate_witness :
    stripDots (qrecChars ("basedomain.example.com").toList
      ("basedomain.example.com").toList) = [] ∧
    constructPaths "basedomain.example.com" "basedomain.example.com" =
      [("", (none : Option Int))] :=
  ⟨by decide,
   empty_remainder_single_candidate.1 "basedomain.example.com" "basedomain.example.com"
     (by decide)⟩

/-- C3 counterexample: a hostname equal to the base domain does not yield
an empty candidate sequence; construct_paths yields one candidate. -/
theorem empty_remainder_counterexample :
    constructPaths "basedomain.example.com" "basedomain.example.com" ≠ [] := by
  decide

theorem splitChar_ne_nil (sep : Char) (l : List Char) : splitChar sep l ≠ [] := by
  cases l with
  | nil => exact fun h => List.noConfusion h
  | cons c rest =>
    simp only [splitChar]
    cases splitChar sep rest with
    | nil => exact fun h => List.noConfusion h
    | cons a t =>
      by_cases hc : (c == sep) = true
      · simp [hc]
      · simp [hc]

theorem length_splitChar (sep : Char) (l : List Char) :
    (splitChar sep l).length = l.count sep + 1 := by
  induction l with
  | nil => rfl
  | cons c rest ih =>
    simp only [splitChar]
    cases h : splitChar sep rest with
    | nil => exact absurd h (splitChar_ne_nil sep rest)
    | cons a t =>
      rw [h] at ih
      simp only [List.length_cons] at ih
      by_cases hc : (c == sep) = true
      · simp only [hc, if_true, List.length_cons, List.count_cons]
        omega
      · simp only [hc, if_false, Bool.false_eq_true, List.length_cons, List.count_cons]
        omega

theorem count_joinCharList (sep : Char) :
    ∀ comps : List (List Char), comps ≠ [] →
      (joinCharList sep comps).count sep =
        (comps.map (fun x => x.count sep)).sum + (comps.length - 1)
  | [], h => absurd rfl h
  | [x], _ => by simp [joinCharList]
  | x :: y :: rest, _ => by
    have ih := count_joinCharList sep (y :: rest) (fun h => List.noConfusion h)
    simp only [List.length_cons] at ih ⊢
    simp only [joinCharList, List.count_append, List.count_cons_self,
      List.map_cons, List.sum_cons] at ih ⊢
    omega

theorem coalesce_count_sum :
    ∀ comps : List (List Char),
      ((coalesce comps).map (fun x => x.count '/')).sum =
        (comps.map (fun x => x.count '/')).sum
  | [] => rfl
  | [_] => rfl
  | [d, e] => by
    simp only [coalesce, List.map_cons, List.map_nil, List.sum_cons, List.sum_nil,
      List.count_append]
    rw [List.count_cons_of_ne (by decide)]
    omega
  | a :: b :: c :: rest => by
    have ih := coalesce_count_sum (b :: c :: rest)
    simp only [coalesce, List.map_cons, List.sum_cons] at ih ⊢
    omega

theorem compCount_join (comps : List (List Char)) (h : comps ≠ []) :
    pathComponentCount (String.mk (joinCharList '/' comps)) =
      (comps.map (fun x => x.count '/')).sum + comps.length := by
  have h1 : (String.mk (joinCharList '/' comps)).toList = joinCharList '/' comps := rfl
  unfold pathComponentCount
  rw [h1, length_splitChar, count_joinCharList '/' comps h]
  have hpos : 0 < comps.length := List.length_pos.mpr h
  omega

theorem yieldPathsAux_head (fuel : Nat) (x : List Char) (rest : List (List Char))
    (sh : Option Int) (h : (x :: rest).length ≤ fuel + 1) :
    (yieldPathsAux fuel (x :: rest) sh).head? =
      some (String.mk (joinCharList '/' (x :: rest)), sh) := by
  cases rest with
  | nil => cases fuel <;> rfl
  | cons y t =>
    cases fuel with
    | zero => simp at h
    | succ f => rfl

theorem yieldPathsAux_chain :
    ∀ (fuel : Nat) (comps : List (List Char)) (sh : Option Int),
      comps.length ≤ fuel →
      List.Chain' (fun a b : String × Option Int =>
        pathComponentCount b.1 ≤ pathComponentCount a.1) (yieldPathsAux fuel comps sh) := by
  intro fuel
  induction fuel with
  | zero =>
    intro comps sh h
    cases comps with
    | nil => exact List.chain'_nil
    | cons a t => simp at h
  | succ f ih =>
    intro comps sh h
    match comps with
    | [] => exact List.chain'_nil
    | [x] => exact List.chain'_singleton _
    | a :: b :: rest =>
      have hco := coalesce_length (a :: b :: rest) (by simp)
      simp only [List.length_cons] at hco
      have hlen2 : (coalesce (a :: b :: rest)).length ≤ f := by
        simp only [List.length_cons] at h
        omega
      have hch := ih (coalesce (a :: b :: rest)) sh hlen2
      have hne : coalesce (a :: b :: rest) ≠ [] := by
        intro hc
        rw [hc] at hco
        simp at hco
      obtain ⟨x', rest', hx⟩ := List.exists_cons_of_ne_nil hne
      simp only [yieldPathsAux]
      apply List.Chain'.cons' hch
      intro y hy
      have hlen3 : (x' :: rest').length ≤ f := by rw [← hx]; exact hlen2
      rw [hx] at hy
      rw [yieldPathsAux_head f x' rest' sh (by omega)] at hy
      simp only [Option.mem_def, Option.some.injEq] at hy
      subst hy
      show pathComponentCount (String.mk (joinCharList '/' (x' :: rest'))) ≤
        pathComponentCount (String.mk (joinCharList '/' (a :: b :: rest)))
      rw [← hx]
      rw [compCount_join (coalesce (a :: b :: rest)) hne,
        compCount_join (a :: b :: rest) (fun hcon => List.noConfusion hcon)]
      have hsum := coalesce_count_sum (a :: b :: rest)
      simp only [List.length_cons] at hco ⊢
      omega

theorem joinCharList_cons2_ne_nil (a b : List Char) (rest : List (List Char)) :
    joinCharList '/' (a :: b :: rest) ≠ [] := by
  simp only [joinCharList]
  intro h
  rcases List.append_eq_nil.mp h with ⟨_, h2⟩
  exact List.cons_ne_nil _ _ h2

theorem coalesce_ne_nil_singleton :
    ∀ comps : List (List Char), 2 ≤ comps.length → coalesce comps ≠ [[]]
  | [], h => by simp at h
  | [_], h => by simp at h
  | [d, e], _ => by
    simp only [coalesce]
    intro hc
    simp only [List.cons.injEq, and_true] at hc
    rcases List.append_eq_nil.mp hc with ⟨_, h2⟩
    exact List.cons_ne_nil _ _ h2
  | a :: b :: c :: rest, _ => by
    have hlen := coalesce_length (b :: c :: rest) (by simp)
    simp only [coalesce]
    intro hc
    simp only [List.cons.injEq] at hc
    rw [hc.2] at hlen
    simp at hlen

theorem yieldPathsAux_empty_path :
    ∀ (fuel : Nat) (comps : List (List Char)) (sh : Option Int) (p : String × Option Int),
      p ∈ yieldPathsAux fuel comps sh → p.1 = "" → comps = [[]] := by
  intro fuel
  induction fuel with
  | zero =>
    intro comps sh p hp h0
    cases comps with
    | nil => simp [yieldPathsAux] at hp
    | cons a t =>
      cases t with
      | nil =>
        simp only [yieldPathsAux, List.mem_singleton] at hp
        rw [hp] at h0
        have ha : a = [] := congrArg String.data h0
        rw [ha]
      | cons b u => simp [yieldPathsAux] at hp
  | succ f ih =>
    intro comps sh p hp h0
    match comps with
    | [] => simp [yieldPathsAux] at hp
    | [x] =>
      simp only [yieldPathsAux, List.mem_singleton] at hp
      rw [hp] at h0
      have hx : x = [] := congrArg String.data h0
      rw [hx]
    | a :: b :: rest =>
      simp only [yieldPathsAux, List.mem_cons] at hp
      rcases hp with hp | hp
      · rw [hp] at h0
        have hj : joinCharList '/' (a :: b :: rest) = [] := congrArg String.data h0
        exact absurd hj (joinCharList_cons2_ne_nil a b rest)
      · have hc := ih (coalesce (a :: b :: rest)) sh p hp h0
        exact absurd hc (coalesce_ne_nil_singleton _ (by simp))

theorem splitChar_cons_eq (sep c : Char) (rest : List Char) (a : List Char)
    (t : List (List Char)) (hs : splitChar sep rest = a :: t) :
    splitChar sep (c :: rest) =
      if (c == sep) = true then [] :: a :: t else (c :: a) :: t := by
  simp only [splitChar, hs]

theorem splitChar_eq_single_nil (sep : Char) :
    ∀ l : List Char, splitChar sep l = [[]] → l = []
  | [], _ => rfl
  | c :: rest, h => by
    exfalso
    cases hs : splitChar sep rest with
    | nil => exact absurd hs (splitChar_ne_nil sep rest)
    | cons a t =>
      rw [splitChar_cons_eq sep c rest a t hs] at h
      by_cases hc : (c == sep) = true
      · rw [if_pos hc] at h
        simp at h
      · rw [if_neg hc] at h
        simp at h

theorem splitChar_getLast_nil (sep : Char) :
    ∀ l : List Char, (splitChar sep l).getLast? = some [] →
      l = [] ∨ l.getLast? = some sep
  | [], _ => Or.inl rfl
  | c :: rest, h => by
    cases hs : splitChar sep rest with
    | nil => exact absurd hs (splitChar_ne_nil sep rest)
    | cons a t =>
      rw [splitChar_cons_eq sep c rest a t hs] at h
      by_cases hc : (c == sep) = true
      · rw [if_pos hc] at h
        rw [List.getLast?_cons_cons] at h
        have hr : (splitChar sep rest).getLast? = some [] := by rw [hs]; exact h
        rcases splitChar_getLast_nil sep rest hr with h1 | h1
        · subst h1
          right
          have hcs : c = sep := by simpa using hc
          simp [hcs]
        · right
          cases rest with
          | nil => simp at h1
          | cons r rs =>
            rw [List.getLast?_cons_cons]
            exact h1
      · rw [if_neg hc] at h
        cases t with
        | nil => simp at h
        | cons q u =>
          rw [List.getLast?_cons_cons] at h
          have hr : (splitChar sep rest).getLast? = some [] := by
            rw [hs, List.getLast?_cons_cons]
            exact h
          rcases splitChar_getLast_nil sep rest hr with h1 | h1
          · exfalso
            subst h1
            have hss : ([[]] : List (List Char)) = a :: q :: u := hs
            simp at hss
          · right
            cases rest with
            | nil => simp at h1
            | cons r rs =>
              rw [List.getLast?_cons_cons]
              exact h1

theorem rawComponents_head_nil (hl bdl : List Char)
    (h : (rawComponents hl bdl).head? = some []) :
    rawComponents hl bdl = [[]] := by
  unfold rawComponents at h ⊢
  rw [List.head?_reverse] at h
  rcases splitChar_getLast_nil '.' _ h with h1 | h1
  · rw [h1]
    rfl
  · exfalso
    unfold stripDots at h1
    have := stripList_getLast_false isDot _ '.' h1
    simp [isDot] at this

theorem shardSplit_fst_single_nil (raw : List (List Char))
    (hcs : (shardSplit raw).1 = [[]]) :
    raw = [[]] ∨ ∃ lbl, raw = [[], lbl] := by
  cases hlast : raw.getLast? with
  | none =>
    have hnil : raw = [] := List.getLast?_eq_none_iff.mp hlast
    rw [hnil] at hcs
    simp [shardSplit] at hcs
  | some lbl =>
    cases hint : pyInt lbl with
    | none =>
      rw [shardSplit_eq_none raw lbl hlast hint] at hcs
      exact Or.inl hcs
    | some n =>
      obtain ⟨ys, hys⟩ := List.getLast?_eq_some_iff.mp hlast
      have h1 : (shardSplit raw).1 = raw.dropLast := by
        simp only [shardSplit, hlast, hint]
      rw [h1, hys, List.dropLast_concat] at hcs
      right
      exact ⟨lbl, by rw [hys, hcs]; rfl⟩

theorem constructPaths_empty_path (h bd : String) (p : String × Option Int)
    (hp : p ∈ constructPaths h bd) (h0 : p.1 = "") :
    stripDots (qrecChars h.toList bd.toList) = [] := by
  simp only [constructPaths] at hp
  have hcs := yieldPathsAux_empty_path _ _ _ p hp h0
  rcases shardSplit_fst_single_nil _ hcs with h1 | ⟨lbl, h1⟩
  · unfold rawComponents at h1
    have h2 := congrArg List.reverse h1
    simp only [List.reverse_reverse] at h2
    exact splitChar_eq_single_nil '.' _ (by simpa using h2)
  · exfalso
    have hhead : (rawComponents h.toList bd.toList).head? = some [] := by
      rw [h1]
      rfl
    have h2 := rawComponents_head_nil h.toList bd.toList hhead
    rw [h1] at h2
    simp at h2

/-- C4 (corrected): for every hostname ending in the configured base
domain, the path-component counts of the yielded candidates never increase
from one candidate to the next; and every yielded coordination path is a
non-empty string except in the degenerate case where the remainder of the
hostname after stripping the base domain is empty, in which case the whole
candidate list is the single empty-path candidate. -/
theorem candidate_paths_monotone (h bd : String)
    (_hend : endswithStr h bd = true) :
    List.Chain' (fun a b : String × Option Int =>
      pathComponentCount b.1 ≤ pathComponentCount a.1) (constructPaths h bd) ∧
    (∀ p ∈ constructPaths h bd, p.1 = "" →
      stripDots (qrecChars h.toList bd.toList) = [] ∧
      constructPaths h bd = [("", (none : Option Int))]) := by
  refine ⟨?_, fun p hp h0 => ?_⟩
  · simp only [constructPaths]
    exact yieldPathsAux_chain _ _ _ le_rfl
  · have hq := constructPaths_empty_path h bd p hp h0
    exact ⟨hq, constructPaths_of_empty_qrec h bd hq⟩

theorem candidate_paths_monotone_witness :
    endswithStr "0.job.foo.bar.bas.buz.basedomain.example.com" "basedomain.example.com" = true ∧
    List.Chain' (fun a b : String × Option Int =>
      pathComponentCount b.1 ≤ pathComponentCount a.1)
      (constructPaths "0.job.foo.bar.bas.buz.basedomain.example.com" "basedomain.example.com") :=
  ⟨by decide,
   (candidate_paths_monotone "0.job.foo.bar.bas.buz.basedomain.example.com"
     "basedomain.example.com" (by decide)).1⟩

/-- C4 counterexample: a hostname that ends with the base domain can yield
a candidate whose coordination path is the empty string. -/
theorem candidate_paths_counterexample :
    endswithStr "basedomain.example.com" "basedomain.example.com" = true ∧
    ("", (none : Option Int)) ∈
      constructPaths "basedomain.example.com" "basedomain.example.com" := by
  decide

end PdnsZkns
